import Mathlib

/-!
Verification of the ds-sim total-order broadcast simulator.

The definitions below are a shallow embedding of the Go sources:
- namespace NtpSync embeds the two-buffer total-order node of
  src/ntp-sync/main.go (functions queue, synchronized, flush, receive,
  the broadcaster delay computation and the jam matrix);
- namespace Causal embeds the bare causal-delivery node of the unnamed
  variant (function receive with its deliver loop).

Go machine integers are modelled as Int (timestamps, latencies) or Nat
(node indices, sequence numbers, counts); no arithmetic in the embedded
code can overflow in the simulated ranges.
-/

namespace NtpSync

/-- Embeds the Go struct message: {sender int, t int64, data string}.
Senders are node indices, hence Nat; timestamps are Int. -/
structure Message where
  sender : Nat
  t : Int
  data : String
deriving DecidableEq

/-- Embeds the buffer-related state of the Go struct node:
primaryBuffer, secondaryBuffer (container/list holding messages, modelled
as Lean lists front-to-back) and tWait. -/
structure Buffer where
  primary : List Message
  secondary : List Message
  tWait : Int
deriving DecidableEq

/-- The node state relevant to receive/flush: the lamport counter t plus
the buffer. -/
structure NodeState where
  t : Int
  buf : Buffer
deriving DecidableEq

/-- Embeds the insertion loop of node.queue: advance mark from the front
while not (m.t < mark.t), then insert before mark (or push back when the
scan exhausts the list). -/
def insertSorted (m : Message) : List Message → List Message
  | [] => [m]
  | x :: xs => if m.t < x.t then m :: x :: xs else x :: insertSorted m xs

/-- Embeds node.queue of src/ntp-sync/main.go: choose the target list
(primary when it is empty, seeding tWait with m.t; otherwise primary for
m.t < tWait and secondary for m.t >= tWait) and insert m by the sorted
linear scan. -/
def queue (b : Buffer) (m : Message) : Buffer :=
  if 0 < b.primary.length then
    if m.t < b.tWait then
      { b with primary := insertSorted m b.primary }
    else
      { b with secondary := insertSorted m b.secondary }
  else
    { primary := insertSorted m b.primary, secondary := b.secondary, tWait := m.t }

/-- Embeds node.synchronized: build the set of senders mentioned in the
secondary buffer (the Go map of sender ids) and compare its size with the
pool's participant count. -/
def synchronized (participants : Nat) (b : Buffer) : Bool :=
  (b.secondary.map Message.sender).dedup.length == participants

/-- Embeds the receive-side lamport update of node.receive:
if m.t > n.t then n.t = m.t; n.t++. -/
def receiveClock (v remoteT : Int) : Int :=
  (if remoteT > v then remoteT else v) + 1

/-- Embeds the primary-draining loop of node.flush: remove messages from
the front, incrementing the clock before each delivery log line; returns
the final clock and the emitted (clock value, message) events in order. -/
def flushPrimary (t : Int) : List Message → Int × List (Int × Message)
  | [] => (t, [])
  | m :: ms =>
    let r := flushPrimary (t + 1) ms
    (r.1, (t + 1, m) :: r.2)

/-- Embeds the tWait update of the secondary-promotion loop of node.flush:
for each moved message, if m.t > tWait then tWait = m.t. -/
def promoteTWait (w : Int) : List Message → Int
  | [] => w
  | m :: ms => promoteTWait (if w < m.t then m.t else w) ms

/-- The effect of node.flush on the buffer: primary is drained, every
secondary message is pushed to the back of primary in order, secondary is
left empty and tWait is raised to the largest moved timestamp above it. -/
def flushBuf (b : Buffer) : Buffer :=
  { primary := b.secondary, secondary := [], tWait := promoteTWait b.tWait b.secondary }

/-- Embeds node.flush on the full node state, also returning the emitted
delivery events. -/
def flush (s : NodeState) : NodeState × List (Int × Message) :=
  let r := flushPrimary s.t s.buf.primary
  ({ t := r.1, buf := flushBuf s.buf }, r.2)

/-- Embeds node.receive: lamport update, queue the message, and flush when
synchronized. -/
def receive (participants : Nat) (s : NodeState) (m : Message) : NodeState × List (Int × Message) :=
  let t1 := receiveClock s.t m.t
  let b1 := queue s.buf m
  if synchronized participants b1 then
    flush { t := t1, buf := b1 }
  else
    ({ t := t1, buf := b1 }, [])

/-- Folds receive over a list of arriving messages, concatenating the
emitted delivery events. -/
def receiveRun (participants : Nat) : NodeState → List Message → NodeState × List (Int × Message)
  | s, [] => (s, [])
  | s, m :: ms =>
    let r1 := receive participants s m
    let r2 := receiveRun participants r1.1 ms
    (r2.1, r1.2 ++ r2.2)

/-- The buffer states reachable from a fresh node (newNode sets both
buffers empty and tWait = 0) by any sequence of queue and flush steps. -/
inductive Reachable : Buffer → Prop where
  | init : Reachable ⟨[], [], 0⟩
  | step_insert (b : Buffer) (m : Message) : Reachable b → Reachable (queue b m)
  | step_flush (b : Buffer) : Reachable b → Reachable (flushBuf b)

/-- Ascending timestamp order of a buffer list. -/
def sortedByT (l : List Message) : Prop :=
  l.Pairwise (fun a b => a.t ≤ b.t)

/-- The state invariant maintained by queue and flushBuf from the fresh
node state: primary holds the current wave (timestamps at most tWait,
with tWait attained when primary is nonempty), secondary holds the next
wave (timestamps at least tWait), primary empties only together with
secondary, and both lists are sorted ascending by timestamp. -/
def Inv (b : Buffer) : Prop :=
  (∀ m ∈ b.primary, m.t ≤ b.tWait) ∧
  (∀ m ∈ b.secondary, b.tWait ≤ m.t) ∧
  (b.primary = [] → b.secondary = []) ∧
  (b.primary ≠ [] → b.tWait ∈ b.primary.map Message.t) ∧
  sortedByT b.primary ∧ sortedByT b.secondary

/-- The insertion position as claim C4 words it, stated from the spec
for comparison with insertSorted: the message is placed at the position
found by a linear scan to the first element not smaller than its
timestamp, i.e. before the first element with timestamp >= m.t. -/
def specInsertNotSmaller (m : Message) (l : List Message) : List Message :=
  l.takeWhile (fun x => decide (x.t < m.t)) ++ m :: l.dropWhile (fun x => decide (x.t < m.t))

/-- Embeds the jam command of main: networkJam[source][target] = latency.
The matrix is modelled as a function on (source, target) pairs. -/
def setJam (jam : Nat → Nat → Int) (a b : Nat) (x : Int) : Nat → Nat → Int :=
  fun i j => if i = a ∧ j = b then x else jam i j

/-- Models crypto/rand.Int(rand.Reader, big.NewInt(modulus)) with the
random source abstracted by r: per its documentation it panics when the
modulus is not positive (modelled as none), otherwise it returns a value
in [0, modulus), here r % modulus. -/
def randInt (modulus r : Int) : Option Int :=
  if modulus ≤ 0 then none else some (r % modulus)

/-- Embeds the per-destination delay computation of the broadcaster
closure in main: latency = networkJam[m.sender][i] + lmin + rv where rv
is drawn by rand.Int with modulus lmax - lmin; none when that draw
panics. -/
def broadcastDelay (jam : Nat → Nat → Int) (sender dest : Nat) (lmin lmax r : Int) :
    Option Int :=
  (randInt (lmax - lmin) r).map (fun rv => jam sender dest + lmin + rv)

end NtpSync

namespace Causal

/-- Embeds the Go struct message of the bare causal-delivery variant:
{sender int, sequence int, data string}. Senders are node indices and
sequence numbers count sends from 0, hence Nat. -/
structure CMessage where
  sender : Nat
  sequence : Nat
  data : String
deriving DecidableEq

/-- Embeds the inner scan of receive: walk the buffer front-to-back and
remove the first message whose sequence number equals the delivered
counter of its sender; none when no buffered message is deliverable. -/
def scanBuf (delivered : Nat → Nat) : List CMessage → Option (CMessage × List CMessage)
  | [] => none
  | m :: rest =>
    if m.sequence = delivered m.sender then some (m, rest)
    else
      match scanBuf delivered rest with
      | some p => some (p.1, m :: p.2)
      | none => none

/-- Embeds delivered[s]++ on the delivered-counter slice, modelled as a
function from sender ids to counters. -/
def bump (delivered : Nat → Nat) (s : Nat) : Nat → Nat :=
  fun i => if i = s then delivered i + 1 else delivered i

/-- Embeds the outer loop of receive, with explicit fuel: repeatedly scan
for a deliverable message, remove it, increment its sender's delivered
counter and record the delivery, until the scan fails. Each successful
iteration removes one buffered element, so fuel equal to the buffer
length (as supplied by deliverAll) makes this exactly the Go loop. -/
def deliverLoop : Nat → (Nat → Nat) → List CMessage →
    (Nat → Nat) × List CMessage × List CMessage
  | 0, delivered, buf => (delivered, buf, [])
  | fuel + 1, delivered, buf =>
    match scanBuf delivered buf with
    | none => (delivered, buf, [])
    | some p =>
      let r := deliverLoop fuel (bump delivered p.1.sender) p.2
      (r.1, r.2.1, p.1 :: r.2.2)

/-- The deliver loop of receive run to completion on a buffer. -/
def deliverAll (delivered : Nat → Nat) (buf : List CMessage) :
    (Nat → Nat) × List CMessage × List CMessage :=
  deliverLoop buf.length delivered buf

/-- The per-node state of the causal-delivery variant: the delivered
counters and the holdback buffer. -/
structure CState where
  delivered : Nat → Nat
  buffer : List CMessage

/-- Embeds receive of the causal-delivery variant: push the arriving
message to the back of the buffer, then run the deliver loop; returns the
new state and the messages delivered by this call, in delivery order. -/
def receiveC (s : CState) (m : CMessage) : CState × List CMessage :=
  let r := deliverAll s.delivered (s.buffer ++ [m])
  (⟨r.1, r.2.1⟩, r.2.2)

/-- Folds receiveC over a list of arriving messages, concatenating the
delivery events. -/
def runC : CState → List CMessage → CState × List CMessage
  | s, [] => (s, [])
  | s, m :: ms =>
    let r1 := receiveC s m
    let r2 := runC r1.1 ms
    (r2.1, r1.2 ++ r2.2)

/-- Number of delivery events from sender s in an event list. -/
def countS (s : Nat) (evs : List CMessage) : Nat :=
  (evs.filter (fun m => m.sender == s)).length

/-- The sequence numbers delivered from sender s, in delivery order. -/
def seqsOf (s : Nat) (evs : List CMessage) : List Nat :=
  (evs.filter (fun m => m.sender == s)).map CMessage.sequence

end Causal

namespace Causal

/-- countS distributes over cons. -/
theorem countS_cons (s : Nat) (m : CMessage) (evs : List CMessage) :
    countS s (m :: evs) =
      if m.sender = s then countS s evs + 1 else countS s evs := by
  by_cases h : m.sender = s <;> simp [countS, List.filter_cons, h]

/-- seqsOf distributes over cons. -/
theorem seqsOf_cons (s : Nat) (m : CMessage) (evs : List CMessage) :
    seqsOf s (m :: evs) =
      if m.sender = s then m.sequence :: seqsOf s evs else seqsOf s evs := by
  by_cases h : m.sender = s <;> simp [seqsOf, List.filter_cons, h]

/-- countS distributes over append. -/
theorem countS_append (s : Nat) (a b : List CMessage) :
    countS s (a ++ b) = countS s a + countS s b := by
  simp [countS, List.filter_append]

/-- seqsOf distributes over append. -/
theorem seqsOf_append (s : Nat) (a b : List CMessage) :
    seqsOf s (a ++ b) = seqsOf s a ++ seqsOf s b := by
  simp [seqsOf, List.filter_append]

/-- A successful scan returns a message whose sequence number equals its
sender's delivered counter. -/
theorem scanBuf_seq (delivered : Nat → Nat) :
    ∀ (buf : List CMessage) (p : CMessage × List CMessage),
      scanBuf delivered buf = some p → p.1.sequence = delivered p.1.sender := by
  intro buf
  induction buf with
  | nil => intro p h; cases h
  | cons m rest ih =>
    intro p h
    rw [scanBuf] at h
    by_cases hm : m.sequence = delivered m.sender
    · rw [if_pos hm] at h
      cases h
      exact hm
    · rw [if_neg hm] at h
      cases hscan : scanBuf delivered rest with
      | none => rw [hscan] at h; cases h
      | some q =>
        rw [hscan] at h
        cases h
        exact ih q hscan

/-- A successful scan removes exactly one buffered message. -/
theorem scanBuf_length (delivered : Nat → Nat) :
    ∀ (buf : List CMessage) (p : CMessage × List CMessage),
      scanBuf delivered buf = some p → p.2.length + 1 = buf.length := by
  intro buf
  induction buf with
  | nil => intro p h; cases h
  | cons m rest ih =>
    intro p h
    rw [scanBuf] at h
    by_cases hm : m.sequence = delivered m.sender
    · rw [if_pos hm] at h
      cases h
      rfl
    · rw [if_neg hm] at h
      cases hscan : scanBuf delivered rest with
      | none => rw [hscan] at h; cases h
      | some q =>
        rw [hscan] at h
        cases h
        have := ih q hscan
        simp only [List.length_cons]
        omega

/-- With enough fuel the deliver loop runs until no buffered message is
deliverable, exactly like the unbounded Go loop. -/
theorem deliverLoop_complete :
    ∀ (fuel : Nat) (delivered : Nat → Nat) (buf : List CMessage),
      buf.length ≤ fuel →
      scanBuf (deliverLoop fuel delivered buf).1
        (deliverLoop fuel delivered buf).2.1 = none := by
  intro fuel
  induction fuel with
  | zero =>
    intro delivered buf hlen
    have : buf = [] := List.length_eq_zero.mp (Nat.le_zero.mp hlen)
    subst this
    rfl
  | succ fuel ih =>
    intro delivered buf hlen
    cases hscan : scanBuf delivered buf with
    | none => simp [deliverLoop, hscan]
    | some p =>
      have hl := scanBuf_length delivered buf p hscan
      simp only [deliverLoop, hscan]
      exact ih (bump delivered p.1.sender) p.2 (by omega)

/-- Each delivery is of the message whose sequence number equals its
sender's current delivered counter, and bumps that counter by one: the
final counters grow by the per-sender delivery counts and the delivered
sequence numbers of each sender are the consecutive integers starting at
that sender's initial counter. -/
theorem deliverLoop_spec :
    ∀ (fuel : Nat) (delivered : Nat → Nat) (buf : List CMessage) (s : Nat),
      (deliverLoop fuel delivered buf).1 s
          = delivered s + countS s (deliverLoop fuel delivered buf).2.2
      ∧ seqsOf s (deliverLoop fuel delivered buf).2.2
          = List.range' (delivered s) (countS s (deliverLoop fuel delivered buf).2.2) := by
  intro fuel
  induction fuel with
  | zero =>
    intro delivered buf s
    simp [deliverLoop, countS, seqsOf]
  | succ fuel ih =>
    intro delivered buf s
    cases hscan : scanBuf delivered buf with
    | none => simp [deliverLoop, hscan, countS, seqsOf]
    | some p =>
      have hseq := scanBuf_seq delivered buf p hscan
      simp only [deliverLoop, hscan]
      obtain ⟨ih1, ih2⟩ := ih (bump delivered p.1.sender) p.2 s
      by_cases hs : p.1.sender = s
      · rw [countS_cons, if_pos hs, seqsOf_cons, if_pos hs]
        have hbump : bump delivered p.1.sender s = delivered s + 1 := by
          simp [bump, hs]
        constructor
        · rw [ih1, hbump]
          omega
        · rw [ih2, hbump, hseq, hs, List.range'_succ]
      · rw [countS_cons, if_neg hs, seqsOf_cons, if_neg hs]
        have hbump : bump delivered p.1.sender s = delivered s := by
          simp [bump]
          intro h
          exact absurd h.symm hs
        rw [ih1, ih2, hbump]
        exact ⟨rfl, rfl⟩

/-- receiveC instantiates the deliver loop on the buffer extended with
the arriving message. -/
theorem receiveC_spec (s0 : CState) (m : CMessage) (snd : Nat) :
    (receiveC s0 m).1.delivered snd
        = s0.delivered snd + countS snd (receiveC s0 m).2
    ∧ seqsOf snd (receiveC s0 m).2
        = List.range' (s0.delivered snd) (countS snd (receiveC s0 m).2) := by
  simp only [receiveC, deliverAll]
  exact deliverLoop_spec _ _ _ snd

/-- Over any run of receives, each sender's delivered counter equals the
number of messages delivered from it, and the delivered sequence numbers
of each sender are consecutive from its initial counter. -/
theorem runC_spec :
    ∀ (ms : List CMessage) (s0 : CState) (snd : Nat),
      (runC s0 ms).1.delivered snd
          = s0.delivered snd + countS snd (runC s0 ms).2
      ∧ seqsOf snd (runC s0 ms).2
          = List.range' (s0.delivered snd) (countS snd (runC s0 ms).2) := by
  intro ms
  induction ms with
  | nil =>
    intro s0 snd
    simp [runC, countS, seqsOf]
  | cons m rest ih =>
    intro s0 snd
    simp only [runC]
    obtain ⟨ha1, ha2⟩ := receiveC_spec s0 m snd
    obtain ⟨hb1, hb2⟩ := ih (receiveC s0 m).1 snd
    rw [countS_append, seqsOf_append]
    constructor
    · rw [hb1, ha1]
      omega
    · rw [ha2, hb2, ha1]
      have h := List.range'_append_1 (s0.delivered snd)
        (countS snd (receiveC s0 m).2)
        (countS snd (runC (receiveC s0 m).1 rest).2)
      rw [h, Nat.add_comm]

end Causal

namespace NtpSync

/-- The Go insertion scan produces a permutation of pushing the new
message on the front. -/
theorem insertSorted_perm (m : Message) (l : List Message) :
    List.Perm (insertSorted m l) (m :: l) := by
  induction l with
  | nil => exact List.Perm.refl _
  | cons x xs ih =>
    rw [insertSorted]
    by_cases h : m.t < x.t
    · rw [if_pos h]
    · rw [if_neg h]
      exact (ih.cons x).trans (List.Perm.swap m x xs)

/-- Membership after the insertion scan. -/
theorem mem_insertSorted {a m : Message} {l : List Message} :
    a ∈ insertSorted m l ↔ a = m ∨ a ∈ l := by
  rw [(insertSorted_perm m l).mem_iff, List.mem_cons]

/-- The insertion scan never yields an empty list. -/
theorem insertSorted_ne_nil (m : Message) (l : List Message) :
    insertSorted m l ≠ [] := by
  intro hc
  have h := (insertSorted_perm m l).length_eq
  rw [hc] at h
  simp at h

/-- The insertion scan preserves ascending timestamp order. -/
theorem sorted_insertSorted (m : Message) {l : List Message} (h : sortedByT l) :
    sortedByT (insertSorted m l) := by
  induction l with
  | nil => simp [insertSorted, sortedByT]
  | cons x xs ih =>
    simp only [sortedByT, List.pairwise_cons] at h
    rw [insertSorted]
    by_cases hlt : m.t < x.t
    · rw [if_pos hlt]
      simp only [sortedByT, List.pairwise_cons]
      refine ⟨?_, h.1, h.2⟩
      intro b hb
      rcases List.mem_cons.mp hb with rfl | hb
      · exact le_of_lt hlt
      · exact le_trans (le_of_lt hlt) (h.1 b hb)
    · rw [if_neg hlt]
      simp only [sortedByT, List.pairwise_cons]
      constructor
      · intro b hb
        rcases mem_insertSorted.mp hb with rfl | hb
        · exact le_of_not_lt hlt
        · exact h.1 b hb
      · exact ih h.2

/-- The insertion scan places the message right after the maximal prefix
of elements with timestamp at most its own, i.e. before the first
strictly greater element. -/
theorem insertSorted_eq_take_drop (m : Message) (l : List Message) :
    insertSorted m l =
      l.takeWhile (fun x => decide (x.t ≤ m.t)) ++
        m :: l.dropWhile (fun x => decide (x.t ≤ m.t)) := by
  induction l with
  | nil => simp [insertSorted]
  | cons x xs ih =>
    by_cases h : m.t < x.t
    · have hx : decide (x.t ≤ m.t) = false := by simp; omega
      simp [insertSorted, if_pos h, List.takeWhile_cons, List.dropWhile_cons, hx]
    · have hx : decide (x.t ≤ m.t) = true := by simp; omega
      simp [insertSorted, if_neg h, List.takeWhile_cons, List.dropWhile_cons, hx, ih]

/-- The starting threshold never decreases through the promotion loop. -/
theorem le_promoteTWait (l : List Message) : ∀ w : Int, w ≤ promoteTWait w l := by
  induction l with
  | nil => intro w; simp [promoteTWait]
  | cons m ms ih =>
    intro w
    simp only [promoteTWait]
    refine le_trans ?_ (ih _)
    by_cases h : w < m.t
    · rw [if_pos h]; exact le_of_lt h
    · rw [if_neg h]

/-- Every promoted timestamp is bounded by the final threshold. -/
theorem mem_le_promoteTWait (l : List Message) :
    ∀ (w : Int) (x : Message), x ∈ l → x.t ≤ promoteTWait w l := by
  induction l with
  | nil => intro _ x hx; cases hx
  | cons m ms ih =>
    intro w x hx
    simp only [promoteTWait]
    rcases List.mem_cons.mp hx with rfl | hmem
    · refine le_trans ?_ (le_promoteTWait ms _)
      by_cases h : w < x.t
      · rw [if_pos h]
      · rw [if_neg h]; omega
    · exact ih _ x hmem

/-- The final threshold is either the starting one or a promoted
timestamp. -/
theorem promoteTWait_eq_or_mem (l : List Message) : ∀ w : Int,
    promoteTWait w l = w ∨ promoteTWait w l ∈ l.map Message.t := by
  induction l with
  | nil => intro w; left; rfl
  | cons m ms ih =>
    intro w
    simp only [promoteTWait]
    rcases ih (if w < m.t then m.t else w) with h | h
    · rw [h]
      by_cases hw : w < m.t
      · right
        rw [if_pos hw]
        simp
      · left
        rw [if_neg hw]
    · right
      simp only [List.map_cons, List.mem_cons]
      exact Or.inr h

/-- The drain loop advances the clock once per drained message. -/
theorem flushPrimary_fst (l : List Message) : ∀ t : Int,
    (flushPrimary t l).1 = t + l.length := by
  induction l with
  | nil => intro t; simp [flushPrimary]
  | cons m ms ih =>
    intro t
    simp only [flushPrimary, List.length_cons]
    rw [ih]
    omega

/-- The drain loop emits exactly the drained list, in order. -/
theorem flushPrimary_msgs (l : List Message) : ∀ t : Int,
    (flushPrimary t l).2.map Prod.snd = l := by
  induction l with
  | nil => intro t; rfl
  | cons m ms ih =>
    intro t
    simp only [flushPrimary, List.map_cons]
    rw [ih]

/-- The clock values carried by the drain loop's emissions are the
consecutive integers following the starting clock. -/
theorem flushPrimary_clocks (l : List Message) : ∀ t : Int,
    (flushPrimary t l).2.map Prod.fst =
      (List.range l.length).map (fun i : Nat => t + 1 + (i : Int)) := by
  induction l with
  | nil => intro t; rfl
  | cons m ms ih =>
    intro t
    simp only [flushPrimary, List.length_cons, List.map_cons]
    rw [ih, List.range_succ_eq_map, List.map_cons, List.map_map]
    congr 1
    · push_cast
      ring
    · refine List.map_congr_left ?_
      intro i hi
      simp only [Function.comp_apply]
      push_cast
      ring

/-- queue on an empty primary buffer seeds the wave. -/
theorem queue_empty {b : Buffer} (m : Message) (h : b.primary = []) :
    queue b m = ⟨insertSorted m b.primary, b.secondary, m.t⟩ := by
  rw [queue, if_neg]
  simp [h]

/-- queue on a nonempty primary with a timestamp below the threshold
admits the message into the draining wave. -/
theorem queue_low {b : Buffer} (m : Message) (h : b.primary ≠ []) (hlt : m.t < b.tWait) :
    queue b m = ⟨insertSorted m b.primary, b.secondary, b.tWait⟩ := by
  rw [queue, if_pos (List.length_pos.mpr h), if_pos hlt]

/-- queue on a nonempty primary with a timestamp at or above the
threshold defers the message to the next wave. -/
theorem queue_high {b : Buffer} (m : Message) (h : b.primary ≠ []) (hge : b.tWait ≤ m.t) :
    queue b m = ⟨b.primary, insertSorted m b.secondary, b.tWait⟩ := by
  rw [queue, if_pos (List.length_pos.mpr h), if_neg (not_lt.mpr hge)]

/-- synchronized compares the number of distinct senders in the
secondary buffer against the participant count. -/
theorem synchronized_iff (N : Nat) (b : Buffer) :
    synchronized N b = true ↔ (b.secondary.map Message.sender).toFinset.card = N := by
  simp [synchronized, List.card_toFinset]

/-- Inserting a message only adds its own sender to the sender set. -/
theorem senders_insertSorted (m : Message) (l : List Message) :
    ((insertSorted m l).map Message.sender).toFinset =
      insert m.sender ((l.map Message.sender).toFinset) := by
  have h := (insertSorted_perm m l).map Message.sender
  rw [List.toFinset_eq_of_perm _ _ h]
  simp

/-- The fresh buffer satisfies the invariant. -/
theorem inv_init : Inv ⟨[], [], 0⟩ := by
  refine ⟨?_, ?_, ?_, ?_, ?_, ?_⟩ <;> simp [sortedByT]

/-- queue preserves the buffer invariant. -/
theorem inv_queue {b : Buffer} (m : Message) (hb : Inv b) : Inv (queue b m) := by
  obtain ⟨h1, h2, h3, h4, h5, h6⟩ := hb
  by_cases hp : b.primary = []
  · rw [queue_empty m hp]
    have hsec : b.secondary = [] := h3 hp
    refine ⟨?_, ?_, ?_, ?_, ?_, ?_⟩
    · intro x hx
      rcases mem_insertSorted.mp hx with rfl | hmem
      · exact le_refl _
      · rw [hp] at hmem
        cases hmem
    · intro x hx
      rw [hsec] at hx
      cases hx
    · intro _
      exact hsec
    · intro _
      rw [hp]
      simp [insertSorted]
    · rw [hp]
      simp [insertSorted, sortedByT]
    · exact h6
  · by_cases hlt : m.t < b.tWait
    · rw [queue_low m hp hlt]
      refine ⟨?_, h2, ?_, ?_, sorted_insertSorted m h5, h6⟩
      · intro x hx
        rcases mem_insertSorted.mp hx with rfl | hmem
        · exact le_of_lt hlt
        · exact h1 x hmem
      · intro hcon
        exact absurd hcon (insertSorted_ne_nil m b.primary)
      · intro _
        obtain ⟨x, hx, hxt⟩ := List.mem_map.mp (h4 hp)
        exact List.mem_map.mpr ⟨x, mem_insertSorted.mpr (Or.inr hx), hxt⟩
    · rw [queue_high m hp (not_lt.mp hlt)]
      refine ⟨h1, ?_, ?_, h4, h5, sorted_insertSorted m h6⟩
      · intro x hx
        rcases mem_insertSorted.mp hx with rfl | hmem
        · exact not_lt.mp hlt
        · exact h2 x hmem
      · intro hcon
        exact absurd hcon hp

/-- flushBuf preserves the buffer invariant. -/
theorem inv_flush {b : Buffer} (hb : Inv b) : Inv (flushBuf b) := by
  obtain ⟨h1, h2, h3, h4, h5, h6⟩ := hb
  refine ⟨?_, ?_, ?_, ?_, h6, ?_⟩
  · intro x hx
    exact mem_le_promoteTWait b.secondary b.tWait x hx
  · intro x hx
    cases hx
  · intro _
    rfl
  · intro hne
    rcases promoteTWait_eq_or_mem b.secondary b.tWait with h | h
    · obtain ⟨x, hx⟩ := List.exists_mem_of_ne_nil b.secondary hne
      have hle : x.t ≤ promoteTWait b.tWait b.secondary :=
        mem_le_promoteTWait b.secondary b.tWait x hx
      rw [h] at hle
      have hxt : x.t = promoteTWait b.tWait b.secondary := by
        rw [h]
        exact le_antisymm hle (h2 x hx)
      exact List.mem_map.mpr ⟨x, hx, hxt⟩
    · exact h
  · exact List.Pairwise.nil

/-- Every reachable buffer state satisfies the invariant. -/
theorem reachable_inv {b : Buffer} (h : Reachable b) : Inv b := by
  induction h with
  | init => exact inv_init
  | step_insert b m _ ih => exact inv_queue m ih
  | step_flush b _ ih => exact inv_flush ih

/-- When every promoted timestamp is at least the starting threshold and
there is at least one, the final threshold is a promoted timestamp (and
hence, with mem_le_promoteTWait, their maximum). -/
theorem promoteTWait_attained {l : List Message} {w : Int}
    (h2 : ∀ m ∈ l, w ≤ m.t) (hne : l ≠ []) :
    promoteTWait w l ∈ l.map Message.t := by
  rcases promoteTWait_eq_or_mem l w with h | h
  · obtain ⟨x, hx⟩ := List.exists_mem_of_ne_nil l hne
    have hle := mem_le_promoteTWait l w x hx
    have hxt : x.t = promoteTWait w l := by
      rw [h] at hle ⊢
      exact le_antisymm hle (h2 x hx)
    exact List.mem_map.mpr ⟨x, hx, hxt⟩
  · exact h

/-- A list permuting a two-element list is one of its two orderings. -/
theorem permPairCases {α : Type _} {y z b c : α} (h : List.Perm [b, c] [y, z]) :
    b = y ∧ c = z ∨ b = z ∧ c = y := by
  have hb : b ∈ [y, z] := h.mem_iff.mp (List.mem_cons_self b [c])
  rcases List.mem_cons.mp hb with rfl | hb2
  · left
    refine ⟨rfl, ?_⟩
    have h2 : List.Perm [c] [z] := (List.perm_cons b).mp h
    simpa using List.perm_singleton.mp h2
  · have hbz : b = z := by simpa using hb2
    subst hbz
    right
    refine ⟨rfl, ?_⟩
    have hswap : List.Perm [y, b] [b, y] := List.Perm.swap b y []
    have h2 : List.Perm [c] [y] := (List.perm_cons b).mp (h.trans hswap)
    simpa using List.perm_singleton.mp h2

/-- A list permuting a three-element list is one of its six orderings. -/
theorem permTripleCases {α : Type _} {x y z : α} {l : List α}
    (h : List.Perm l [x, y, z]) :
    l = [x, y, z] ∨ l = [x, z, y] ∨ l = [y, x, z] ∨ l = [y, z, x] ∨
      l = [z, x, y] ∨ l = [z, y, x] := by
  rcases l with _ | ⟨a, _ | ⟨b, _ | ⟨c, _ | ⟨d, tl⟩⟩⟩⟩
  · have hl := h.length_eq
    simp at hl
  · have hl := h.length_eq
    simp at hl
  · have hl := h.length_eq
    simp at hl
  · have ha : a ∈ [x, y, z] := h.mem_iff.mp (by simp)
    rcases List.mem_cons.mp ha with rfl | ha2
    · have h2 := (List.perm_cons a).mp h
      rcases permPairCases h2 with ⟨rfl, rfl⟩ | ⟨rfl, rfl⟩
      · exact Or.inl rfl
      · exact Or.inr (Or.inl rfl)
    · rcases List.mem_cons.mp ha2 with rfl | ha3
      · have hmid : List.Perm [x, a, z] (a :: [x, z]) := @List.perm_middle _ a [x] [z]
        have h2 := (List.perm_cons a).mp (h.trans hmid)
        rcases permPairCases h2 with ⟨rfl, rfl⟩ | ⟨rfl, rfl⟩
        · exact Or.inr (Or.inr (Or.inl rfl))
        · exact Or.inr (Or.inr (Or.inr (Or.inl rfl)))
      · have haz : a = z := by simpa using ha3
        subst haz
        have hmid : List.Perm [x, y, a] (a :: [x, y]) := @List.perm_middle _ a [x, y] []
        have h2 := (List.perm_cons a).mp (h.trans hmid)
        rcases permPairCases h2 with ⟨rfl, rfl⟩ | ⟨rfl, rfl⟩
        · exact Or.inr (Or.inr (Or.inr (Or.inr (Or.inl rfl))))
        · exact Or.inr (Or.inr (Or.inr (Or.inr (Or.inr rfl))))
  · have hl := h.length_eq
    simp at hl

/-- The receive-side clock update computes max(v, t) + 1, hence is
strictly above the remote timestamp. -/
theorem receiveClock_eq_max (v t : Int) :
    receiveClock v t = max v t + 1 ∧ t < receiveClock v t := by
  constructor
  · unfold receiveClock
    rcases le_or_lt t v with h | h
    · rw [if_neg (not_lt.mpr h), max_eq_left h]
    · rw [if_pos h, max_eq_right h.le]
  · unfold receiveClock
    rcases le_or_lt t v with h | h
    · rw [if_neg (not_lt.mpr h)]
      omega
    · rw [if_pos h]
      omega

end NtpSync

/-- C7: the receive-side clock update sets the clock to max(v, t) + 1, so
after processing a message carrying timestamp t the receiver's clock is
strictly greater than t. -/
theorem c7_lamport_rule (v t : Int) :
    NtpSync.receiveClock v t = max v t + 1 ∧ t < NtpSync.receiveClock v t :=
  NtpSync.receiveClock_eq_max v t

/-- C1 counterexample: with arrival order A, B, C the first message seeds
the primary buffer, so after the three inserts the secondary buffer holds
senders [1, 2] only (not all of {0, 1, 2}), isSynchronized is false and
no flush is emitted — contrary to the claim, which asserts
synchronization and a flush for every arrival order. -/
theorem c1_claim_false :
    ((NtpSync.receiveRun 3 ⟨0, ⟨[], [], 0⟩⟩
        [⟨0, 5, "A"⟩, ⟨1, 5, "B"⟩, ⟨2, 6, "C"⟩]).1.buf.secondary.map
          NtpSync.Message.sender) = [1, 2]
    ∧ NtpSync.synchronized 3
        (NtpSync.receiveRun 3 ⟨0, ⟨[], [], 0⟩⟩
          [⟨0, 5, "A"⟩, ⟨1, 5, "B"⟩, ⟨2, 6, "C"⟩]).1.buf = false
    ∧ (NtpSync.receiveRun 3 ⟨0, ⟨[], [], 0⟩⟩
        [⟨0, 5, "A"⟩, ⟨1, 5, "B"⟩, ⟨2, 6, "C"⟩]).2 = [] := by
  decide

/-- C1 (amended): in a 3-node pool, when node1's receive processes
exactly the three messages (0, 5, "A"), (1, 5, "B"), (2, 6, "C") in any
arrival order from the fresh state, the first-arriving message seeds the
primary buffer, so the secondary buffer never covers all three senders:
isSynchronized is false after the three inserts and no flush is
triggered (no delivery events are emitted). -/
theorem c1_no_sync_any_order (l : List NtpSync.Message)
    (h : List.Perm l [⟨0, 5, "A"⟩, ⟨1, 5, "B"⟩, ⟨2, 6, "C"⟩]) :
    NtpSync.synchronized 3 (NtpSync.receiveRun 3 ⟨0, ⟨[], [], 0⟩⟩ l).1.buf = false
    ∧ (NtpSync.receiveRun 3 ⟨0, ⟨[], [], 0⟩⟩ l).2 = [] := by
  rcases NtpSync.permTripleCases h with rfl | rfl | rfl | rfl | rfl | rfl <;> decide

/-- C1 witness: the amended claim applied to the concrete arrival order
B, A, C. -/
theorem c1_no_sync_any_order_witness :
    NtpSync.synchronized 3
        (NtpSync.receiveRun 3 ⟨0, ⟨[], [], 0⟩⟩
          [⟨1, 5, "B"⟩, ⟨0, 5, "A"⟩, ⟨2, 6, "C"⟩]).1.buf = false
    ∧ (NtpSync.receiveRun 3 ⟨0, ⟨[], [], 0⟩⟩
          [⟨1, 5, "B"⟩, ⟨0, 5, "A"⟩, ⟨2, 6, "C"⟩]).2 = [] :=
  c1_no_sync_any_order _ (by decide)

/-- C2 counterexample: flush on the buffer state (primary = [],
secondary = [(0, 1, "x")], tWait = 5) leaves waitThreshold at 5, which is
not the maximum (or any) timestamp among the moved messages — the code
only raises tWait to timestamps above it, so the claim is false for
arbitrary buffer states. -/
theorem c2_claim_false :
    (NtpSync.flush ⟨0, ⟨[], [⟨0, 1, "x"⟩], 5⟩⟩).1.buf.tWait = 5
    ∧ ((⟨0, ⟨[], [⟨0, 1, "x"⟩], 5⟩⟩ : NtpSync.NodeState).buf.secondary.map
        NtpSync.Message.t = [1])
    ∧ ¬ ((NtpSync.flush ⟨0, ⟨[], [⟨0, 1, "x"⟩], 5⟩⟩).1.buf.tWait
          ∈ ((⟨0, ⟨[], [⟨0, 1, "x"⟩], 5⟩⟩ : NtpSync.NodeState).buf.secondary.map
              NtpSync.Message.t)) := by
  decide

/-- C2 (amended): for every node state whose primary buffer is sorted by
timestamp and whose secondary buffer is nonempty with all timestamps at
least waitThreshold (as holds whenever the code triggers flush), flush
emits exactly the former primary messages in order (ascending by
timestamp, ties in buffer order), stamping them with consecutive clock
values and advancing the clock once per message; afterwards primary holds
exactly the former secondary in order, secondary is empty and
waitThreshold equals the maximum moved timestamp. -/
theorem c2_flush_spec (s : NtpSync.NodeState)
    (hsort : NtpSync.sortedByT s.buf.primary)
    (hsec : ∀ m ∈ s.buf.secondary, s.buf.tWait ≤ m.t)
    (hne : s.buf.secondary ≠ []) :
    (NtpSync.flush s).2.map Prod.snd = s.buf.primary
    ∧ NtpSync.sortedByT ((NtpSync.flush s).2.map Prod.snd)
    ∧ (NtpSync.flush s).2.map Prod.fst
        = (List.range s.buf.primary.length).map (fun i : Nat => s.t + 1 + (i : Int))
    ∧ (NtpSync.flush s).1.t = s.t + s.buf.primary.length
    ∧ (NtpSync.flush s).1.buf.primary = s.buf.secondary
    ∧ (NtpSync.flush s).1.buf.secondary = []
    ∧ (NtpSync.flush s).1.buf.tWait ∈ s.buf.secondary.map NtpSync.Message.t
    ∧ (∀ m ∈ s.buf.secondary, m.t ≤ (NtpSync.flush s).1.buf.tWait) := by
  refine ⟨?_, ?_, ?_, ?_, rfl, rfl, ?_, ?_⟩
  · exact NtpSync.flushPrimary_msgs s.buf.primary s.t
  · simp only [NtpSync.flush]
    rw [NtpSync.flushPrimary_msgs s.buf.primary s.t]
    exact hsort
  · exact NtpSync.flushPrimary_clocks s.buf.primary s.t
  · exact NtpSync.flushPrimary_fst s.buf.primary s.t
  · exact NtpSync.promoteTWait_attained hsec hne
  · intro m hm
    exact NtpSync.mem_le_promoteTWait s.buf.secondary s.buf.tWait m hm

/-- C2 witness: the amended claim applied to the concrete state
(clock 0, primary = [(0, 1, "a")], secondary = [(1, 2, "b")],
tWait = 1). -/
theorem c2_flush_spec_witness :
    (NtpSync.flush ⟨0, ⟨[⟨0, 1, "a"⟩], [⟨1, 2, "b"⟩], 1⟩⟩).2.map Prod.snd
        = [(⟨0, 1, "a"⟩ : NtpSync.Message)]
    ∧ (NtpSync.flush ⟨0, ⟨[⟨0, 1, "a"⟩], [⟨1, 2, "b"⟩], 1⟩⟩).1.buf.primary
        = [⟨1, 2, "b"⟩]
    ∧ (NtpSync.flush ⟨0, ⟨[⟨0, 1, "a"⟩], [⟨1, 2, "b"⟩], 1⟩⟩).1.buf.secondary = []
    ∧ (NtpSync.flush ⟨0, ⟨[⟨0, 1, "a"⟩], [⟨1, 2, "b"⟩], 1⟩⟩).1.buf.tWait
        ∈ ([⟨1, 2, "b"⟩] : List NtpSync.Message).map NtpSync.Message.t := by
  have h := c2_flush_spec ⟨0, ⟨[⟨0, 1, "a"⟩], [⟨1, 2, "b"⟩], 1⟩⟩
    (by simp [NtpSync.sortedByT]) (by decide) (by decide)
  exact ⟨h.1, h.2.2.2.2.1, h.2.2.2.2.2.1, h.2.2.2.2.2.2.1⟩

/-- C3: isSynchronized is true exactly when the distinct senders in the
secondary buffer number the full participant count, and inserting a
message from a sender already represented in the secondary buffer never
flips a false result to true. -/
theorem c3_synchronized_iff (N : Nat) (b : NtpSync.Buffer) (m : NtpSync.Message) :
    (NtpSync.synchronized N b = true ↔
      (b.secondary.map NtpSync.Message.sender).toFinset.card = N)
    ∧ (m.sender ∈ b.secondary.map NtpSync.Message.sender →
        NtpSync.synchronized N b = false →
        NtpSync.synchronized N (NtpSync.queue b m) = false) := by
  constructor
  · exact NtpSync.synchronized_iff N b
  · intro hmem hfalse
    by_cases hp : b.primary = []
    · rw [NtpSync.queue_empty m hp]
      exact hfalse
    · by_cases hlt : m.t < b.tWait
      · rw [NtpSync.queue_low m hp hlt]
        exact hfalse
      · rw [NtpSync.queue_high m hp (not_lt.mp hlt)]
        have hcard :
            ((NtpSync.insertSorted m b.secondary).map NtpSync.Message.sender).toFinset
              = (b.secondary.map NtpSync.Message.sender).toFinset := by
          rw [NtpSync.senders_insertSorted]
          exact Finset.insert_eq_self.mpr (List.mem_toFinset.mpr hmem)
        have hlen :
            ((NtpSync.insertSorted m b.secondary).map NtpSync.Message.sender).dedup.length
              = (b.secondary.map NtpSync.Message.sender).dedup.length := by
          rw [← List.card_toFinset, ← List.card_toFinset, hcard]
        simp only [NtpSync.synchronized] at hfalse ⊢
        rw [hlen]
        exact hfalse

/-- C3 witness: with 2 participants and secondary already holding sender
0, inserting another message from sender 0 leaves isSynchronized
false. -/
theorem c3_synchronized_iff_witness :
    NtpSync.synchronized 2
      (NtpSync.queue ⟨[⟨1, 3, "a"⟩], [⟨0, 5, "B"⟩], 3⟩ ⟨0, 6, "x"⟩) = false :=
  (c3_synchronized_iff 2 ⟨[⟨1, 3, "a"⟩], [⟨0, 5, "B"⟩], 3⟩ ⟨0, 6, "x"⟩).2
    (by decide) (by decide)

/-- C4 counterexample: inserting (1, 5, "y") into a primary buffer
holding (0, 5, "x") (tWait = 6), the code places the new message after
the equal-timestamp element (insertion-order tie-break), not at the
position of the first element not smaller than its timestamp as the
claim words it. -/
theorem c4_claim_false :
    NtpSync.queue ⟨[⟨0, 5, "x"⟩], [], 6⟩ ⟨1, 5, "y"⟩
      ≠ ⟨NtpSync.specInsertNotSmaller ⟨1, 5, "y"⟩ [⟨0, 5, "x"⟩], [], 6⟩
    ∧ (NtpSync.queue ⟨[⟨0, 5, "x"⟩], [], 6⟩ ⟨1, 5, "y"⟩).primary
        = [⟨0, 5, "x"⟩, ⟨1, 5, "y"⟩]
    ∧ NtpSync.specInsertNotSmaller ⟨1, 5, "y"⟩ [⟨0, 5, "x"⟩]
        = [⟨1, 5, "y"⟩, ⟨0, 5, "x"⟩] := by
  decide

/-- C4 (amended): insert routes the message to secondary when primary is
nonempty and the timestamp is at least waitThreshold, to primary when it
is below, and to primary with waitThreshold reset when primary is empty;
in each case the message is inserted after all elements with timestamp at
most its own, i.e. before the first strictly greater element (equal
timestamps break ties by insertion order). -/
theorem c4_insert_placement (b : NtpSync.Buffer) (m : NtpSync.Message) :
    (b.primary ≠ [] → b.tWait ≤ m.t →
      NtpSync.queue b m = ⟨b.primary, NtpSync.insertSorted m b.secondary, b.tWait⟩)
    ∧ (b.primary ≠ [] → m.t < b.tWait →
      NtpSync.queue b m = ⟨NtpSync.insertSorted m b.primary, b.secondary, b.tWait⟩)
    ∧ (b.primary = [] →
      NtpSync.queue b m = ⟨NtpSync.insertSorted m b.primary, b.secondary, m.t⟩)
    ∧ (∀ l, NtpSync.insertSorted m l =
        l.takeWhile (fun x => decide (x.t ≤ m.t)) ++
          m :: l.dropWhile (fun x => decide (x.t ≤ m.t))) :=
  ⟨fun h1 h2 => NtpSync.queue_high m h1 h2,
   fun h1 h2 => NtpSync.queue_low m h1 h2,
   fun h => NtpSync.queue_empty m h,
   fun l => NtpSync.insertSorted_eq_take_drop m l⟩

/-- C4 witness: the amended claim applied to concrete buffers exercising
all three routing cases. -/
theorem c4_insert_placement_witness :
    NtpSync.queue ⟨[⟨0, 3, "p"⟩], [], 3⟩ ⟨1, 4, "q"⟩
        = ⟨[⟨0, 3, "p"⟩], NtpSync.insertSorted ⟨1, 4, "q"⟩ [], 3⟩
    ∧ NtpSync.queue ⟨[⟨0, 3, "p"⟩], [], 3⟩ ⟨1, 2, "q"⟩
        = ⟨NtpSync.insertSorted ⟨1, 2, "q"⟩ [⟨0, 3, "p"⟩], [], 3⟩
    ∧ NtpSync.queue ⟨[], [], 0⟩ ⟨1, 2, "q"⟩
        = ⟨NtpSync.insertSorted ⟨1, 2, "q"⟩ [], [], 2⟩ :=
  ⟨(c4_insert_placement ⟨[⟨0, 3, "p"⟩], [], 3⟩ ⟨1, 4, "q"⟩).1 (by decide) (by decide),
   (c4_insert_placement ⟨[⟨0, 3, "p"⟩], [], 3⟩ ⟨1, 2, "q"⟩).2.1 (by decide) (by decide),
   (c4_insert_placement ⟨[], [], 0⟩ ⟨1, 2, "q"⟩).2.2.1 rfl⟩

/-- C5 counterexample: the reachable state obtained by inserting
(0, 5, "A") into the fresh buffer has the seed message in primary with
timestamp equal to waitThreshold, so "every message in primary has
timestamp below the threshold" fails. -/
theorem c5_claim_false :
    NtpSync.Reachable (NtpSync.queue ⟨[], [], 0⟩ ⟨0, 5, "A"⟩)
    ∧ ¬ (∀ m ∈ (NtpSync.queue ⟨[], [], 0⟩ ⟨0, 5, "A"⟩).primary,
          m.t < (NtpSync.queue ⟨[], [], 0⟩ ⟨0, 5, "A"⟩).tWait) := by
  constructor
  · exact NtpSync.Reachable.step_insert _ _ NtpSync.Reachable.init
  · decide

/-- C5 (amended): every buffer state reachable from the fresh node by
inserts and flushes satisfies: every message in primary has timestamp at
most waitThreshold (the seed message attains it with equality), and when
primary is nonempty, waitThreshold is the timestamp of some message in
primary — the threshold fixed when the wave began (the seed's timestamp,
or the largest promoted timestamp after a flush). -/
theorem c5_threshold_inv (b : NtpSync.Buffer) (h : NtpSync.Reachable b) :
    (∀ m ∈ b.primary, m.t ≤ b.tWait)
    ∧ (b.primary ≠ [] → b.tWait ∈ b.primary.map NtpSync.Message.t) := by
  obtain ⟨h1, _, _, h4, _, _⟩ := NtpSync.reachable_inv h
  exact ⟨h1, h4⟩

/-- C5 witness: the amended claim applied to the reachable state obtained
by inserting (0, 7, "W") into the fresh buffer. -/
theorem c5_threshold_inv_witness :
    (∀ m ∈ (NtpSync.queue ⟨[], [], 0⟩ ⟨0, 7, "W"⟩).primary,
        m.t ≤ (NtpSync.queue ⟨[], [], 0⟩ ⟨0, 7, "W"⟩).tWait)
    ∧ ((NtpSync.queue ⟨[], [], 0⟩ ⟨0, 7, "W"⟩).primary ≠ [] →
        (NtpSync.queue ⟨[], [], 0⟩ ⟨0, 7, "W"⟩).tWait
          ∈ (NtpSync.queue ⟨[], [], 0⟩ ⟨0, 7, "W"⟩).primary.map NtpSync.Message.t) :=
  c5_threshold_inv _ (NtpSync.Reachable.step_insert _ _ NtpSync.Reachable.init)

/-- C6: every buffer state reachable from the fresh node by any sequence
of inserts (and preserved by flushes) has both the primary and the
secondary queue sorted ascending by message timestamp. -/
theorem c6_buffers_sorted (b : NtpSync.Buffer) (h : NtpSync.Reachable b) :
    NtpSync.sortedByT b.primary ∧ NtpSync.sortedByT b.secondary := by
  obtain ⟨_, _, _, _, h5, h6⟩ := NtpSync.reachable_inv h
  exact ⟨h5, h6⟩

/-- C6 witness: the claim applied to the reachable state obtained by two
inserts into the fresh buffer. -/
theorem c6_buffers_sorted_witness :
    NtpSync.sortedByT
        (NtpSync.queue (NtpSync.queue ⟨[], [], 0⟩ ⟨0, 4, "u"⟩) ⟨1, 9, "v"⟩).primary
    ∧ NtpSync.sortedByT
        (NtpSync.queue (NtpSync.queue ⟨[], [], 0⟩ ⟨0, 4, "u"⟩) ⟨1, 9, "v"⟩).secondary :=
  c6_buffers_sorted _
    (NtpSync.Reachable.step_insert _ _
      (NtpSync.Reachable.step_insert _ _ NtpSync.Reachable.init))

/-- C8: with the random draw r in [0, lmax - lmin), the delivery delay is
the uniform part lmin + r (lying in [lmin, lmax)) plus the jam entry for
the (sender, destination) pair; setJam overwrites only its own entry, so
the delay of a delivery from any other source-destination pair
(a different source to the same destination, or the same source to a
different destination) is unaffected. -/
theorem c8_jam_isolation (jam : Nat → Nat → Int) (a b c d : Nat)
    (x lmin lmax r : Int) (h0 : 0 ≤ r) (h1 : r < lmax - lmin)
    (hpair : (c, d) ≠ (a, b)) :
    NtpSync.broadcastDelay jam c d lmin lmax r = some (jam c d + (lmin + r))
    ∧ lmin ≤ lmin + r ∧ lmin + r < lmax
    ∧ NtpSync.setJam jam a b x c d = jam c d
    ∧ NtpSync.broadcastDelay (NtpSync.setJam jam a b x) c d lmin lmax r
        = NtpSync.broadcastDelay jam c d lmin lmax r := by
  have hmod : ¬ lmax - lmin ≤ 0 := by omega
  have hr : r % (lmax - lmin) = r := Int.emod_eq_of_lt h0 h1
  have hframe : NtpSync.setJam jam a b x c d = jam c d := by
    simp only [NtpSync.setJam]
    rw [if_neg]
    rintro ⟨rfl, rfl⟩
    exact hpair rfl
  refine ⟨?_, by omega, by omega, hframe, ?_⟩
  · simp only [NtpSync.broadcastDelay, NtpSync.randInt, if_neg hmod, Option.map, hr]
    rw [add_assoc]
  · simp only [NtpSync.broadcastDelay, hframe]

/-- C8 witness: the claim applied to the all-zero jam matrix with
setJam 0 1 300 and a delivery of the jammed source's broadcast to a
different destination (node 0 to node 2) with latency window [10, 20)
and draw 3. -/
theorem c8_jam_isolation_witness :
    NtpSync.broadcastDelay (fun _ _ => 0) 0 2 10 20 3
        = some ((fun _ _ => (0 : Int)) 0 2 + (10 + 3))
    ∧ (10 : Int) ≤ 10 + 3 ∧ (10 : Int) + 3 < 20
    ∧ NtpSync.setJam (fun _ _ => 0) 0 1 300 0 2 = (fun _ _ => (0 : Int)) 0 2
    ∧ NtpSync.broadcastDelay (NtpSync.setJam (fun _ _ => 0) 0 1 300) 0 2 10 20 3
        = NtpSync.broadcastDelay (fun _ _ => 0) 0 2 10 20 3 :=
  c8_jam_isolation (fun _ _ => 0) 0 1 0 2 300 10 20 3
    (by decide) (by decide) (by decide)

/-- C9: the broadcast delay draw rand.Int(reader, lmax - lmin) panics
for a non-positive modulus, so with lmax <= lmin every delivery task
crashes (none) instead of delivering, and with lmax > lmin the delay is
always produced. -/
theorem c9_latency_panic (jam : Nat → Nat → Int) (src dst : Nat)
    (lmin lmax r : Int) :
    (lmax ≤ lmin → NtpSync.broadcastDelay jam src dst lmin lmax r = none)
    ∧ (lmin < lmax → (NtpSync.broadcastDelay jam src dst lmin lmax r).isSome = true) := by
  constructor
  · intro h
    simp only [NtpSync.broadcastDelay, NtpSync.randInt]
    rw [if_pos (by omega)]
    rfl
  · intro h
    simp only [NtpSync.broadcastDelay, NtpSync.randInt]
    rw [if_neg (by omega)]
    rfl

/-- C9 witness: the claim applied at lmin = lmax = 50, where the draw's
modulus is 0 and the delivery task panics. -/
theorem c9_latency_panic_witness :
    NtpSync.broadcastDelay (fun _ _ => 0) 0 0 50 50 0 = none :=
  (c9_latency_panic (fun _ _ => 0) 0 0 50 50 0).1 (le_refl 50)

/-- C10: in the bare causal-delivery variant, receive delivers a buffered
message from sender s only when its sequence number equals delivered[s]
and then increments delivered[s] by one: each receive extends the
delivered sequence numbers of every sender by the consecutive integers
starting at its current counter, and over any run from the fresh state
the messages delivered from each sender carry sequence numbers
0, 1, 2, ... with no gaps or duplicates, with delivered[s] equal to the
number of messages delivered from s. -/
theorem c10_causal_delivery (s0 : Causal.CState) (m : Causal.CMessage)
    (ms : List Causal.CMessage) (snd : Nat) :
    ((Causal.receiveC s0 m).1.delivered snd
        = s0.delivered snd + Causal.countS snd (Causal.receiveC s0 m).2
      ∧ Causal.seqsOf snd (Causal.receiveC s0 m).2
        = List.range' (s0.delivered snd) (Causal.countS snd (Causal.receiveC s0 m).2))
    ∧ (Causal.seqsOf snd (Causal.runC ⟨fun _ => 0, []⟩ ms).2
        = List.range' 0 (Causal.countS snd (Causal.runC ⟨fun _ => 0, []⟩ ms).2)
      ∧ (Causal.runC ⟨fun _ => 0, []⟩ ms).1.delivered snd
        = Causal.countS snd (Causal.runC ⟨fun _ => 0, []⟩ ms).2) := by
  refine ⟨Causal.receiveC_spec s0 m snd, ?_, ?_⟩
  · exact (Causal.runC_spec ms ⟨fun _ => 0, []⟩ snd).2
  · have h := (Causal.runC_spec ms ⟨fun _ => 0, []⟩ snd).1
    simpa using h
